import Mathlib

/-!
Verification of the catalog filter engine of `src/app/page.tsx`
(miden-ecosystem single-page directory).

The page keeps a fixed catalog of projects, a search term and a set of
selected tags, and derives the visible subset of the catalog.  We embed the
data model and the filtering logic shallowly: JavaScript strings become
`String`, `Array` becomes `List`, `Set<string>` becomes a duplicate-free
`List String` in insertion order (`Set.has` is `List.contains`, `Set.add`
appends when absent, `Set.delete` filters), `toLowerCase` becomes a
character-wise lowering, and `String.includes` becomes an executable
substring test.
-/

/-- `Project` record from `page.tsx` (interface Project). -/
structure Project where
  id : Nat
  name : String
  description : String
  link : String
  imageUrl : String
  tags : List String
deriving DecidableEq, Repr

/-- Character-wise lowering: model of JavaScript `String.prototype.toLowerCase`. -/
def jsToLower (s : String) : String :=
  ⟨s.data.map Char.toLower⟩

/-- `isPrefixList pat hay` decides whether `pat` is a prefix of `hay`. -/
def isPrefixList (pat hay : List Char) : Bool :=
  match pat, hay with
  | [], _ => true
  | _ :: _, [] => false
  | p :: ps, h :: hs => p == h && isPrefixList ps hs

/-- `substrAt hay pat` decides whether `pat` occurs contiguously in `hay`. -/
def substrAt (hay pat : List Char) : Bool :=
  match hay with
  | [] => isPrefixList pat []
  | _ :: tl => isPrefixList pat hay || substrAt tl pat

/-- Model of JavaScript `s.includes(t)`: `t` occurs as a substring of `s`. -/
def strIncludes (s t : String) : Bool :=
  substrAt s.data t.data

/-- The single project record of the static catalog fixture in `page.tsx`. -/
def midenNameService : Project :=
  { id := 1,
    name := "Miden Name Service",
    description := "A decentralized naming system for the Miden ecosystem.",
    link := "https://miden-name-service-p55kix6fq-paulhenryks-projects.vercel.app/",
    imageUrl := "miden_name_service.png",
    tags := ["Naming", "Utility", "Infrastructure"] }

/-- The static catalog fixture `allProjects` of `page.tsx`. -/
def allProjects : List Project :=
  [midenNameService]

/-- Demo project P1 with tags A and B (spec section 8, conjunctive semantics). -/
def tagDemoP1 : Project :=
  { id := 1, name := "P1", description := "", link := "", imageUrl := "", tags := ["A", "B"] }

/-- Demo project P2 with tag A only (spec section 8, conjunctive semantics). -/
def tagDemoP2 : Project :=
  { id := 2, name := "P2", description := "", link := "", imageUrl := "", tags := ["A"] }

/-- JavaScript `Set.add` on the insertion-order list model: append when absent. -/
def setAdd (s : List String) (t : String) : List String :=
  if s.contains t then s else s ++ [t]

/-- JavaScript `Set.delete` on the list model: remove the element. -/
def setDelete (s : List String) (t : String) : List String :=
  s.filter (fun x => x ≠ t)

/-- `getAllUniqueTags` of `page.tsx`: insert every tag of every project into a
`Set`, then sort ascending (`Array.from(tagSet).sort()`). -/
def getAllUniqueTags (projects : List Project) : List String :=
  let tagSet := projects.foldl (fun acc project => project.tags.foldl setAdd acc) []
  List.insertionSort (fun a b => a ≤ b) tagSet

/-- `matchesSearch` of `page.tsx` (lines 64-67); `term` is the already
lower-cased search term (`searchTerm.toLowerCase()`, line 60). -/
def matchesSearch (term : String) (project : Project) : Bool :=
  term == "" ||
    strIncludes (jsToLower project.name) term ||
    strIncludes (jsToLower project.description) term ||
    project.tags.any (fun tag => strIncludes (jsToLower tag) term)

/-- `matchesTags` of `page.tsx` (lines 69-72): every selected tag equals,
case-insensitively, at least one of the project's own tags. -/
def matchesTags (activeTags : List String) (project : Project) : Bool :=
  activeTags.length == 0 ||
    activeTags.all (fun selectedTag =>
      project.tags.any (fun projectTag => jsToLower projectTag == jsToLower selectedTag))

/-- `filteredProjects` of `page.tsx` (lines 59-76): lower the search term once,
then keep the catalog entries passing both predicates. -/
def filteredProjects (catalog : List Project) (searchTerm : String)
    (selectedTags : List String) : List Project :=
  let term := jsToLower searchTerm
  let activeTags := selectedTags
  catalog.filter (fun project => matchesSearch term project && matchesTags activeTags project)

/-- `handleTagClick` of `page.tsx` (lines 47-57): toggle a tag in the
selected-tag set. -/
def handleTagClick (tag : String) (prevSelectedTags : List String) : List String :=
  if prevSelectedTags.contains tag then setDelete prevSelectedTags tag
  else setAdd prevSelectedTags tag

/-- The component's interactive state: `searchTerm` and `selectedTags`. -/
structure FilterState where
  searchTerm : String
  selectedTags : List String
deriving DecidableEq, Repr

/-- Initial state of the component (lines 38-39): empty term, empty set. -/
def initialState : FilterState :=
  { searchTerm := "", selectedTags := [] }

/-- `handleSearchChange` (lines 43-45): replace the search term verbatim. -/
def handleSearchChange (text : String) (st : FilterState) : FilterState :=
  { st with searchTerm := text }

/-- The tag-click handler at the state level: only `selectedTags` changes. -/
def handleTagClickState (tag : String) (st : FilterState) : FilterState :=
  { st with selectedTags := handleTagClick tag st.selectedTags }

/-- The Clear Filters button (line 118): `setSelectedTags(new Set())`. -/
def clearTags (st : FilterState) : FilterState :=
  { st with selectedTags := [] }

/-- The Clear Search and Filters button (line 177):
`setSelectedTags(new Set()); setSearchTerm('')`. -/
def clearAll (st : FilterState) : FilterState :=
  { st with selectedTags := [], searchTerm := "" }

/-- Character-wise model of JavaScript `String.prototype.trim`: drop leading
and trailing whitespace. -/
def jsTrim (s : String) : String :=
  ⟨((s.data.dropWhile Char.isWhitespace).reverse.dropWhile Char.isWhitespace).reverse⟩

/-- Substring as a proposition: `t` occurs contiguously inside `s`. -/
def SubstrP (t s : String) : Prop :=
  ∃ l r, s.data = l ++ t.data ++ r

/-- The search predicate as the spec states it (section 4.2): the lower-cased
term occurs in the lower-cased name, or description, or some lower-cased tag. -/
def SearchPredicateSpec (term : String) (project : Project) : Prop :=
  SubstrP (jsToLower term) (jsToLower project.name) ∨
  SubstrP (jsToLower term) (jsToLower project.description) ∨
  ∃ tag ∈ project.tags, SubstrP (jsToLower term) (jsToLower tag)

/-- The tag predicate as the spec states it (section 4.3): every selected tag
is case-insensitively equal to at least one of the project's tags. -/
def TagPredicateSpec (selected : List String) (project : Project) : Prop :=
  ∀ t ∈ selected, ∃ pt ∈ project.tags, jsToLower pt = jsToLower t

/-! ### Helper lemmas: substring test, lowering, set operations -/

lemma isPrefixList_iff (pat hay : List Char) :
    isPrefixList pat hay = true ↔ ∃ r, hay = pat ++ r := by
  induction pat generalizing hay with
  | nil => simp [isPrefixList]
  | cons p ps ih =>
    cases hay with
    | nil => simp [isPrefixList]
    | cons h hs =>
      simp only [isPrefixList, Bool.and_eq_true, beq_iff_eq, ih, List.cons_append,
        List.cons.injEq]
      constructor
      · rintro ⟨rfl, r, rfl⟩
        exact ⟨r, rfl, rfl⟩
      · rintro ⟨r, rfl, rfl⟩
        exact ⟨rfl, r, rfl⟩

lemma substrAt_iff (hay pat : List Char) :
    substrAt hay pat = true ↔ ∃ l r, hay = l ++ pat ++ r := by
  induction hay with
  | nil =>
    simp only [substrAt, isPrefixList_iff]
    constructor
    · rintro ⟨r, hr⟩
      exact ⟨[], r, by simpa using hr⟩
    · rintro ⟨l, r, hr⟩
      rw [List.append_assoc] at hr
      rcases List.append_eq_nil.mp hr.symm with ⟨rfl, h2⟩
      rcases List.append_eq_nil.mp h2 with ⟨rfl, rfl⟩
      exact ⟨[], rfl⟩
  | cons c tl ih =>
    simp only [substrAt, Bool.or_eq_true, isPrefixList_iff, ih]
    constructor
    · rintro (⟨r, hr⟩ | ⟨l, r, hr⟩)
      · exact ⟨[], r, by simpa using hr⟩
      · exact ⟨c :: l, r, by simp [hr]⟩
    · rintro ⟨l, r, hr⟩
      cases l with
      | nil => exact Or.inl ⟨r, by simpa using hr⟩
      | cons x xs =>
        simp only [List.cons_append, List.cons.injEq] at hr
        exact Or.inr ⟨xs, r, hr.2⟩

lemma strIncludes_iff (s t : String) : strIncludes s t = true ↔ SubstrP t s := by
  simp [strIncludes, SubstrP, substrAt_iff]

lemma jsToLower_eq_empty_iff (s : String) : jsToLower s = "" ↔ s = "" := by
  cases s with
  | mk data =>
    simp [jsToLower, String.ext_iff]

lemma mem_setAdd (s : List String) (t x : String) :
    x ∈ setAdd s t ↔ x ∈ s ∨ x = t := by
  by_cases h : t ∈ s
  · simp only [setAdd, List.contains, List.elem_eq_mem, h, decide_True, if_true]
    constructor
    · exact Or.inl
    · rintro (hx | rfl)
      · exact hx
      · exact h
  · simp [setAdd, List.contains, h]

lemma mem_setDelete (s : List String) (t x : String) :
    x ∈ setDelete s t ↔ x ∈ s ∧ x ≠ t := by
  simp [setDelete]

lemma nodup_setAdd (s : List String) (t : String) (h : s.Nodup) :
    (setAdd s t).Nodup := by
  by_cases ht : t ∈ s
  · simpa [setAdd, List.contains, ht] using h
  · simp only [setAdd, List.contains, List.elem_eq_mem, ht, decide_False]
    simp [List.nodup_append, h, ht]

/-- The code's search predicate agrees with the spec's description for every
term, including the empty one (where both sides are vacuously true). -/
lemma matchesSearch_iff_spec (term : String) (p : Project) :
    matchesSearch (jsToLower term) p = true ↔ SearchPredicateSpec term p := by
  by_cases h : term = ""
  · subst h
    constructor
    · intro _
      exact Or.inl ⟨[], (jsToLower p.name).data, by simp [jsToLower]⟩
    · intro _
      simp [matchesSearch, jsToLower]
  · have hne : (jsToLower term == "") = false := by
      simp [jsToLower_eq_empty_iff, h]
    simp only [matchesSearch, SearchPredicateSpec, hne, strIncludes_iff, List.any_eq_true,
      Bool.or_eq_true, Bool.false_or]
    tauto

/-- The code's tag predicate agrees with the spec's description for every
selected-tag list, including the empty one (both sides vacuously true). -/
lemma matchesTags_iff_spec (sel : List String) (p : Project) :
    matchesTags sel p = true ↔ TagPredicateSpec sel p := by
  cases sel with
  | nil => simp [matchesTags, TagPredicateSpec]
  | cons s ss =>
    simp [matchesTags, TagPredicateSpec, List.all_eq_true, List.any_eq_true]

/-- With the empty term and no selected tags every project passes, so the
filter keeps the whole catalog. -/
lemma filteredProjects_empty_state (c : List Project) :
    filteredProjects c "" [] = c := by
  apply List.filter_eq_self.mpr
  intro p _
  simp [matchesSearch, matchesTags, jsToLower]

lemma mem_foldl_setAdd (ts : List String) (acc : List String) (x : String) :
    x ∈ ts.foldl setAdd acc ↔ x ∈ acc ∨ x ∈ ts := by
  induction ts generalizing acc with
  | nil => simp
  | cons t ts ih =>
    simp only [List.foldl_cons, ih, mem_setAdd, List.mem_cons]
    tauto

lemma nodup_foldl_setAdd (ts : List String) (acc : List String) (h : acc.Nodup) :
    (ts.foldl setAdd acc).Nodup := by
  induction ts generalizing acc with
  | nil => exact h
  | cons t ts ih => exact ih _ (nodup_setAdd _ _ h)

lemma mem_collectTags (projects : List Project) (acc : List String) (x : String) :
    x ∈ projects.foldl (fun acc project => project.tags.foldl setAdd acc) acc ↔
      x ∈ acc ∨ ∃ p ∈ projects, x ∈ p.tags := by
  induction projects generalizing acc with
  | nil => simp
  | cons q qs ih =>
    simp only [List.foldl_cons, ih, mem_foldl_setAdd, List.mem_cons]
    constructor
    · rintro ((ha | ht) | ⟨p, hp, hx⟩)
      · exact Or.inl ha
      · exact Or.inr ⟨q, Or.inl rfl, ht⟩
      · exact Or.inr ⟨p, Or.inr hp, hx⟩
    · rintro (ha | ⟨p, (rfl | hp), hx⟩)
      · exact Or.inl (Or.inl ha)
      · exact Or.inl (Or.inr hx)
      · exact Or.inr ⟨p, hp, hx⟩

lemma nodup_collectTags (projects : List Project) (acc : List String) (h : acc.Nodup) :
    (projects.foldl (fun acc project => project.tags.foldl setAdd acc) acc).Nodup := by
  induction projects generalizing acc with
  | nil => exact h
  | cons q qs ih => exact ih _ (nodup_foldl_setAdd _ _ h)

/-! ### Claim theorems -/

/-- C1: for every catalog, search term and selected-tag set, the visible set
(`filteredProjects`) is exactly the ordered subsequence of the catalog keeping
the projects for which the search predicate and the tag predicate both hold:
it is the filter of the conjunction, it is a sublist of the catalog (relative
order preserved, no re-sorting), and membership is characterized by the two
predicates. -/
theorem filteredProjects_ordered_subsequence
    (catalog : List Project) (searchTerm : String) (selectedTags : List String) :
    List.Sublist (filteredProjects catalog searchTerm selectedTags) catalog ∧
    filteredProjects catalog searchTerm selectedTags =
      catalog.filter (fun p =>
        matchesSearch (jsToLower searchTerm) p && matchesTags selectedTags p) ∧
    ∀ p, p ∈ filteredProjects catalog searchTerm selectedTags ↔
      p ∈ catalog ∧ SearchPredicateSpec searchTerm p ∧ TagPredicateSpec selectedTags p := by
  refine ⟨List.filter_sublist _, rfl, ?_⟩
  intro p
  rw [show filteredProjects catalog searchTerm selectedTags =
        catalog.filter (fun p =>
          matchesSearch (jsToLower searchTerm) p && matchesTags selectedTags p) from rfl,
    List.mem_filter, Bool.and_eq_true, matchesSearch_iff_spec, matchesTags_iff_spec]


/-- C2: for a non-empty term the search predicate holds iff the lower-cased
term occurs in the lower-cased name, description, or some lower-cased tag
(inclusive-or); and since the term is not trimmed, there is a term with
trailing whitespace whose trimmed form matches a catalog project while the
term itself does not. -/
theorem search_predicate_characterization :
    (∀ (term : String) (p : Project), term ≠ "" →
      (matchesSearch (jsToLower term) p = true ↔ SearchPredicateSpec term p)) ∧
    (∃ (term : String) (p : Project), p ∈ allProjects ∧ jsTrim term ≠ term ∧
      matchesSearch (jsToLower (jsTrim term)) p = true ∧
      matchesSearch (jsToLower term) p = false) := by
  refine ⟨fun term p _ => matchesSearch_iff_spec term p, ?_⟩
  exact ⟨"service ", midenNameService, by decide, by decide, by decide, by decide⟩

/-- C2 witness: the characterization applied to the concrete term "service"
and the catalog's project. -/
theorem search_predicate_characterization_instance :
    ("service" : String) ≠ "" ∧
    (matchesSearch (jsToLower "service") midenNameService = true ↔
      SearchPredicateSpec "service" midenNameService) :=
  ⟨by decide, search_predicate_characterization.1 "service" midenNameService (by decide)⟩

/-- C3: for a non-empty selected-tag set the tag predicate holds iff every
selected tag is case-insensitively equal to at least one of the project's own
tags (conjunctive); and on P1 with tags A,B and P2 with tag A, selecting
both A and B yields exactly P1 while selecting A yields P1 and P2. -/
theorem tag_predicate_conjunctive :
    (∀ (sel : List String) (p : Project), sel ≠ [] →
      (matchesTags sel p = true ↔ TagPredicateSpec sel p)) ∧
    filteredProjects [tagDemoP1, tagDemoP2] "" ["A", "B"] = [tagDemoP1] ∧
    filteredProjects [tagDemoP1, tagDemoP2] "" ["A"] = [tagDemoP1, tagDemoP2] := by
  exact ⟨fun sel p _ => matchesTags_iff_spec sel p, by decide, by decide⟩

/-- C3 witness: the characterization applied to the concrete selection ["A"]
and the demo project P2. -/
theorem tag_predicate_conjunctive_instance :
    (["A"] : List String) ≠ [] ∧
    (matchesTags ["A"] tagDemoP2 = true ↔ TagPredicateSpec ["A"] tagDemoP2) :=
  ⟨by decide, tag_predicate_conjunctive.1 ["A"] tagDemoP2 (by decide)⟩

/-- C4: with the empty search term every project passes the search predicate,
with no selected tags every project passes the tag predicate, and in the
initial state the visible set is the full catalog in original order. -/
theorem empty_filter_state_shows_all :
    (∀ p : Project, matchesSearch (jsToLower "") p = true) ∧
    (∀ p : Project, matchesTags [] p = true) ∧
    (∀ catalog : List Project, filteredProjects catalog initialState.searchTerm
      initialState.selectedTags = catalog) := by
  refine ⟨fun p => ?_, fun p => ?_, fun catalog => filteredProjects_empty_state catalog⟩
  · simp [matchesSearch, jsToLower]
  · simp [matchesTags]

/-- C5: the tag vocabulary is strictly sorted ascending (hence duplicate-free),
contains exactly the tags occurring in some project of the catalog
(deduplicated by exact string equality), and is empty for the empty catalog. -/
theorem getAllUniqueTags_sorted_unique_complete (projects : List Project) :
    List.Sorted (fun a b : String => a < b) (getAllUniqueTags projects) ∧
    (getAllUniqueTags projects).Nodup ∧
    (∀ t, t ∈ getAllUniqueTags projects ↔ ∃ p ∈ projects, t ∈ p.tags) ∧
    getAllUniqueTags ([] : List Project) = [] := by
  have key : getAllUniqueTags projects =
      List.insertionSort (fun a b : String => a ≤ b)
        (projects.foldl (fun acc project => project.tags.foldl setAdd acc) []) := rfl
  have hnd : (projects.foldl (fun acc project => project.tags.foldl setAdd acc) []).Nodup :=
    nodup_collectTags projects [] List.nodup_nil
  have hperm := List.perm_insertionSort (fun a b : String => a ≤ b)
    (projects.foldl (fun acc project => project.tags.foldl setAdd acc) [])
  have hnodup : (getAllUniqueTags projects).Nodup := by
    rw [key]
    exact hperm.nodup_iff.mpr hnd
  have hle : List.Sorted (fun a b : String => a ≤ b) (getAllUniqueTags projects) := by
    rw [key]
    exact List.sorted_insertionSort _ _
  refine ⟨List.Sorted.lt_of_le hle hnodup, hnodup, ?_, rfl⟩
  intro t
  rw [key, List.mem_insertionSort, mem_collectTags]
  simp

/-- C6: toggling the same tag twice returns the selected-tag set to its prior
value as a set: membership after `toggle t; toggle t` agrees with membership
before. -/
theorem toggle_twice_restores_selection (s : List String) (t x : String) :
    x ∈ handleTagClick t (handleTagClick t s) ↔ x ∈ s := by
  by_cases h : t ∈ s
  · have h1 : handleTagClick t s = setDelete s t := by
      simp [handleTagClick, List.contains, h]
    have h2 : handleTagClick t (setDelete s t) = setAdd (setDelete s t) t := by
      simp [handleTagClick, List.contains, mem_setDelete]
    rw [h1, h2, mem_setAdd, mem_setDelete]
    constructor
    · rintro (⟨hx, _⟩ | rfl)
      · exact hx
      · exact h
    · intro hx
      by_cases hxt : x = t
      · exact Or.inr hxt
      · exact Or.inl ⟨hx, hxt⟩
  · have h1 : handleTagClick t s = s ++ [t] := by
      simp [handleTagClick, List.contains, h, setAdd]
    have h2 : handleTagClick t (s ++ [t]) = setDelete (s ++ [t]) t := by
      simp [handleTagClick, List.contains]
    rw [h1, h2, mem_setDelete]
    constructor
    · rintro ⟨hx, hxt⟩
      rcases List.mem_append.mp hx with hx | hx
      · exact hx
      · simp at hx
        exact absurd hx hxt
    · intro hx
      refine ⟨List.mem_append.mpr (Or.inl hx), ?_⟩
      rintro rfl
      exact h hx

/-- C7: the Clear Search and Filters action resets both components at once:
the resulting state is the initial state, so the next recomputation of the
visible set yields the full catalog. -/
theorem clearAll_resets_both (st : FilterState) :
    clearAll st = initialState ∧
    (clearAll st).searchTerm = "" ∧
    (clearAll st).selectedTags = [] ∧
    ∀ catalog : List Project,
      filteredProjects catalog (clearAll st).searchTerm (clearAll st).selectedTags = catalog :=
  ⟨rfl, rfl, rfl, fun catalog => filteredProjects_empty_state catalog⟩

/-- C8: frame conditions of the handlers: `clearTags` empties the selection
and leaves the search term unchanged, the tag-click handler changes only the
selection, and `handleSearchChange` replaces only the search term (verbatim). -/
theorem handlers_frame_conditions (st : FilterState) (text tag : String) :
    (clearTags st).selectedTags = [] ∧
    (clearTags st).searchTerm = st.searchTerm ∧
    (handleTagClickState tag st).searchTerm = st.searchTerm ∧
    (handleTagClickState tag st).selectedTags = handleTagClick tag st.selectedTags ∧
    (handleSearchChange text st).searchTerm = text ∧
    (handleSearchChange text st).selectedTags = st.selectedTags :=
  ⟨rfl, rfl, rfl, rfl, rfl, rfl⟩

/-- C9: if some selected tag matches no tag of any catalog project (lower-cased
comparison), the visible set is empty, whatever the search term. -/
theorem unmatched_selected_tag_empties_visible_set
    (catalog : List Project) (searchTerm : String) (selectedTags : List String)
    (bad : String) (hbad : bad ∈ selectedTags)
    (hnomatch : ∀ p ∈ catalog, ∀ pt ∈ p.tags, jsToLower pt ≠ jsToLower bad) :
    filteredProjects catalog searchTerm selectedTags = [] := by
  apply List.filter_eq_nil_iff.mpr
  intro p hp hpass
  rw [Bool.and_eq_true] at hpass
  have hs := (matchesTags_iff_spec selectedTags p).mp hpass.2 bad hbad
  rcases hs with ⟨pt, hpt, heq⟩
  exact hnomatch p hp pt hpt heq

/-- C9 witness: selecting the tag "zzz", which no catalog project carries,
empties the visible set of the fixture catalog. -/
theorem unmatched_selected_tag_empties_visible_set_instance :
    ("zzz" ∈ (["zzz"] : List String)) ∧
    (∀ p ∈ allProjects, ∀ pt ∈ p.tags, jsToLower pt ≠ jsToLower "zzz") ∧
    filteredProjects allProjects "" ["zzz"] = [] :=
  ⟨by decide, by decide,
    unmatched_selected_tag_empties_visible_set allProjects "" ["zzz"] "zzz"
      (by decide) (by decide)⟩

/-- C10: tag filtering is antitone in the selected-tag set: a project passing
the tag predicate under a superset also passes under a subset, the visible set
under the superset is a sublist of the one under the subset, and toggling an
additional tag on never adds a project to the visible set. -/
theorem tag_filtering_antitone :
    (∀ (p : Project) (S T : List String), S ⊆ T →
      matchesTags T p = true → matchesTags S p = true) ∧
    (∀ (catalog : List Project) (searchTerm : String) (S T : List String), S ⊆ T →
      List.Sublist (filteredProjects catalog searchTerm T)
        (filteredProjects catalog searchTerm S)) ∧
    (∀ (catalog : List Project) (searchTerm : String) (S : List String) (t : String),
      t ∉ S →
      List.Sublist (filteredProjects catalog searchTerm (handleTagClick t S))
        (filteredProjects catalog searchTerm S)) := by
  have hmono : ∀ (p : Project) (S T : List String), S ⊆ T →
      matchesTags T p = true → matchesTags S p = true := by
    intro p S T hsub hT
    rw [matchesTags_iff_spec] at hT ⊢
    exact fun t ht => hT t (hsub ht)
  have hfilter : ∀ (catalog : List Project) (searchTerm : String) (S T : List String),
      S ⊆ T →
      List.Sublist (filteredProjects catalog searchTerm T)
        (filteredProjects catalog searchTerm S) := by
    intro catalog searchTerm S T hsub
    apply List.monotone_filter_right
    intro p hp
    rw [Bool.and_eq_true] at hp ⊢
    exact ⟨hp.1, hmono p S T hsub hp.2⟩
  refine ⟨hmono, hfilter, ?_⟩
  intro catalog searchTerm S t ht
  have hadd : handleTagClick t S = S ++ [t] := by
    simp [handleTagClick, List.contains, ht, setAdd]
  rw [hadd]
  exact hfilter catalog searchTerm S (S ++ [t]) (List.subset_append_left _ _)

/-- C10 witness: with the fixture catalog, the visible set under the selection
containing "Naming" is a sublist of the one under the empty selection, and the
tag predicate transfers from the larger selection to the empty one. -/
theorem tag_filtering_antitone_instance :
    matchesTags [] midenNameService = true ∧
    List.Sublist (filteredProjects allProjects "" ["Naming"])
      (filteredProjects allProjects "" []) :=
  ⟨tag_filtering_antitone.1 midenNameService [] ["Naming"]
      (List.nil_subset _) (by decide),
    tag_filtering_antitone.2.1 allProjects "" [] ["Naming"] (List.nil_subset _)⟩
